import Mathlib

/-
  Verification development for the templet template compiler
  (src/templet.py).  The template text is modelled as a list of
  characters; line splitting is on the newline character.  The
  scanner below mirrors the regular expression _TemplateBuilder.__pattern,
  the builder mirrors _TemplateBuilder.__addcode and _TemplateBuilder.build:
  instead of accumulating generated source lines, the model records for
  every emitted instruction its payload, the requested target line
  (the lineno argument of __addcode), the number of generated physical
  lines present before the call (len of self.code plus self.extralines),
  the physical line at which the instruction is placed, and whether it
  was merged onto the previous generated line.
-/

namespace Templet

/-- Whitespace characters, as in the Python str.isspace and regex class \s
    restricted to the usual ASCII whitespace. -/
def isPySpace (c : Char) : Bool :=
  c = ' ' || c = '\t' || c = '\n' || c = '\r' || c = '\x0b' || c = '\x0c'

/-- Horizontal whitespace, the regex class written as not-non-space-not-newline
    in the pattern (WHITESPACE-TO-EOL uses it before the newline). -/
def isHSpace (c : Char) : Bool :=
  isPySpace c && !(c = '\n')

/-- First character of a Python identifier, class underscore a-z with IGNORECASE. -/
def isIdentStart (c : Char) : Bool :=
  c = '_' || ('a' ≤ c && c ≤ 'z') || ('A' ≤ c && c ≤ 'Z')

/-- Subsequent character of a Python identifier. -/
def isIdentChar (c : Char) : Bool :=
  isIdentStart c || ('0' ≤ c && c ≤ '9')

/-- Number of newline characters in a span, Python count of newline. -/
def nlCount (l : List Char) : Nat := l.count '\n'

/-- Helper for splitlines: accumulates the current line reversed. -/
def splitlinesAux : List Char → List Char → List (List Char)
  | [], acc => [acc.reverse]
  | c :: rest, acc =>
    if c = '\n' then
      match rest with
      | [] => [acc.reverse]
      | _ => acc.reverse :: splitlinesAux rest []
    else splitlinesAux rest (c :: acc)

/-- Python str.splitlines restricted to newline separators: a trailing
    newline produces no extra empty line, the empty string has no lines. -/
def splitlines (cs : List Char) : List (List Char) :=
  match cs with
  | [] => []
  | _ => splitlinesAux cs []

/-- Python newline-join of a list of lines. -/
def joinNl : List (List Char) → List Char
  | [] => []
  | [l] => l
  | l :: rest => l ++ '\n' :: joinNl rest

/-- A line is blank when it consists of whitespace only (Python: l.strip()
    is empty, equivalently l.lstrip() is empty). -/
def isBlank (l : List Char) : Bool := l.all isPySpace

/-- Length of the leading whitespace of a line, Python len l minus len
    of l.lstrip(). -/
def leadingWS (l : List Char) : Nat := (l.takeWhile isPySpace).length

/-- Drop a single leading blank line, as __realign does with del lines[0]. -/
def dropFirstBlank : List (List Char) → List (List Char)
  | [] => []
  | l :: rest => if isBlank l then rest else l :: rest

/-- The margin of __realign: minimum leading-whitespace length over the
    non-blank lines, 0 when there is none (Python: len of lspace and
    min of lspace). -/
def marginOf (ls : List (List Char)) : Nat :=
  match (ls.filter (fun l => !isBlank l)).map leadingWS with
  | [] => 0
  | x :: xs => xs.foldl min x

/-- _TemplateBuilder.__realign: drop one leading blank line, strip the
    common margin from every remaining line, prefix every line with sp. -/
def realign (sp : List Char) (s : List Char) : List Char :=
  let ls := dropFirstBlank (splitlines s)
  joinNl (ls.map (fun l => sp ++ l.drop (marginOf ls)))

/-- The negative lookahead after the dollar: directives are not recognized
    when the dollar is followed by one of . ( / apostrophe quote. -/
def lookaheadBad : List Char → Bool
  | [] => false
  | c :: _ => c = '.' || c = '(' || c = '/' || c = '\'' || c = '"'

/-- Whether the two characters a b occur adjacently (in this order)
    somewhere in the list. -/
def hasPair (a b : Char) : List Char → Bool
  | x :: y :: rest => (x = a && y = b) || hasPair a b (y :: rest)
  | _ => false

/-- Split at the first occurrence of the character c: the part before it
    and the part after it.  Models the greedy scan of non-close-brace
    characters followed by the close brace in the expression alternative. -/
def breakAtChar (c : Char) (l : List Char) : Option (List Char × List Char) :=
  match l.dropWhile (fun x => !(x = c)) with
  | [] => none
  | _ :: rest => some (l.takeWhile (fun x => !(x = c)), rest)

/-- Split at the first adjacent occurrence of a b: the part before it and
    the part after it.  Models the lazy scan up to the literal two-character
    closer in the list-comprehension and code-block alternatives. -/
def breakAt2 (a b : Char) : List Char → Option (List Char × List Char)
  | [] => none
  | [_] => none
  | x :: y :: rest =>
    if x = a && y = b then some ([], rest)
    else
      match breakAt2 a b (y :: rest) with
      | some (p, s) => some (x :: p, s)
      | none => none

/-- Group 1 of __pattern, tried on the text following an eligible dollar.
    Returns the matched group text (empty on a bare dollar with no valid
    form, like the empty final alternative of the pattern) and the
    remaining text.  The alternatives in source order: a second dollar,
    whitespace to end of line, an identifier, a single-brace expression
    whose content has no close brace and may not open with bracket or
    brace, a bracketed list comprehension up to the first literal
    bracket-brace closer, a double-brace code block up to the first
    literal double close brace. -/
def matchDirective : List Char → List Char × List Char := fun rest =>
  match rest with
  | '$' :: r => (['$'], r)
  | _ =>
    let ws := rest.takeWhile isHSpace
    match rest.dropWhile isHSpace with
    | '\n' :: r2 => (ws ++ ['\n'], r2)
    | _ =>
      match rest with
      | '{' :: '[' :: r =>
        match breakAt2 ']' '}' r with
        | some (e, rem) => ('{' :: '[' :: (e ++ [']', '}']), rem)
        | none => ([], rest)
      | '{' :: '{' :: r =>
        match breakAt2 '}' '}' r with
        | some (e, rem) => ('{' :: '{' :: (e ++ ['}', '}']), rem)
        | none => ([], rest)
      | '{' :: r =>
        match breakAtChar '}' r with
        | some (e, rem) => ('{' :: (e ++ ['}']), rem)
        | none => ([], rest)
      | c :: r =>
        if isIdentStart c then (c :: r.takeWhile isIdentChar, r.dropWhile isIdentChar)
        else ([], rest)
      | [] => ([], [])

/-- Whether the matched group 1 ends in a double close brace; this is what
    the lookbehind before group 2 of __pattern observes, since the two
    characters before the current position are exactly the last two
    characters of group 1 whenever they could be two close braces. -/
def endsWithBraces (g1 : List Char) : Bool :=
  match g1.reverse with
  | '}' :: '}' :: _ => true
  | _ => false

/-- Group 2 of __pattern: after a code block, eat trailing horizontal
    whitespace and one newline if present; otherwise match empty. -/
def matchG2 (g1 rem : List Char) : List Char × List Char :=
  if endsWithBraces g1 then
    let ws := rem.takeWhile isHSpace
    match rem.dropWhile isHSpace with
    | '\n' :: r2 => (ws ++ ['\n'], r2)
    | _ => ([], rem)
  else ([], rem)

/-- One element of the re.split result: the literal before a match, the
    group 1 text of the match, the group 2 text of the match. -/
structure Chunk where
  lit : List Char
  g1 : List Char
  g2 : List Char
deriving DecidableEq

/-- Fuelled scanner: walks the text, collects literal characters until an
    eligible dollar, then forms one chunk from the two groups and
    continues after the match.  The fuel only needs to be at least the
    length of the text; the zero-fuel arm is never reached then. -/
def scanAuxF : Nat → List Char → List Char → List Chunk × List Char
  | 0, cs, acc => ([], acc.reverse ++ cs)
  | _ + 1, [], acc => ([], acc.reverse)
  | fuel + 1, c :: r, acc =>
    if c = '$' && !lookaheadBad r then
      let d := matchDirective r
      let g := matchG2 d.1 d.2
      let res := scanAuxF fuel g.2 []
      ({ lit := acc.reverse, g1 := d.1, g2 := g.1 } :: res.1, res.2)
    else scanAuxF fuel r (c :: acc)

/-- The split of a text by __pattern: the chunks and the final literal. -/
def scan (cs : List Char) : List Chunk × List Char :=
  scanAuxF (cs.length + 1) cs []

/-- The operation of an emitted instruction: append a literal, append an
    evaluated expression, extend with a mapped list comprehension, or
    execute a raw code block. -/
inductive Op
  | lit
  | expr
  | listexp
  | block
deriving DecidableEq

/-- One emitted instruction together with the line bookkeeping of
    __addcode at the moment of its emission. -/
structure Instr where
  op : Op
  payload : List Char
  req : Nat
  prevLines : Nat
  placed : Nat
  merged : Bool
deriving DecidableEq

/-- SIMPLE for everything except a raw code block. -/
def simpleOf : Op → Bool
  | .block => false
  | _ => true

/-- Number of physical newlines the generated line of an instruction
    contains: literals are emitted through repr, which escapes newlines,
    so they contribute none; expression, list and block payloads are
    pasted verbatim into the generated line. -/
def genNlOf (op : Op) (payload : List Char) : Nat :=
  match op with
  | .lit => 0
  | _ => nlCount payload

/-- Physical newlines inside the generated line of an instruction. -/
def genNl (i : Instr) : Nat := genNlOf i.op i.payload

/-- Builder state: lineCount is the number of physical lines of generated
    code so far (len of self.code plus self.extralines), lastSimple is
    self.simple, rev holds the emitted instructions newest first. -/
structure BState where
  lineCount : Nat
  lastSimple : Bool
  rev : List Instr
deriving DecidableEq

/-- _TemplateBuilder.__addcode.  The offset of the Python source is
    ln - lineCount; merging happens when it is at most zero and both the
    new and the previous instruction are simple (self.code is never empty
    because of the two preamble entries).  A merged instruction lands on
    the current last physical line; otherwise the instruction is placed
    after max 0 (offset - 1) blank padding lines. -/
def addcode (st : BState) (op : Op) (payload : List Char) (ln : Nat) : BState :=
  let nl := genNlOf op payload
  if ln ≤ st.lineCount ∧ simpleOf op = true ∧ st.lastSimple = true then
    { lineCount := st.lineCount + nl
      lastSimple := simpleOf op
      rev := { op := op, payload := payload, req := ln,
               prevLines := st.lineCount, placed := st.lineCount,
               merged := true } :: st.rev }
  else
    let pad := ln - st.lineCount - 1
    { lineCount := st.lineCount + pad + 1 + nl
      lastSimple := simpleOf op
      rev := { op := op, payload := payload, req := ln,
               prevLines := st.lineCount, placed := st.lineCount + pad + 1,
               merged := false } :: st.rev }

/-- The two compile-time failures of the core: a missing template string
    and a bare dollar with no matching directive form. -/
inductive ErrKind
  | noTemplate
  | unescapedDollar
deriving DecidableEq

/-- A syntax error of the compiler: kind, file name and line number. -/
structure Err where
  kind : ErrKind
  file : List Char
  line : Nat
deriving DecidableEq

/-- The text between single delimiters, Python part sliced from 1 to -1. -/
def mid1 (g1 : List Char) : List Char := (g1.drop 1).take (g1.length - 2)

/-- The text between double delimiters, Python part sliced from 2 to -2. -/
def mid2 (g1 : List Char) : List Char := (g1.drop 2).take (g1.length - 4)

/-- The extra line added to the requested line of a code block when a
    newline immediately follows the opening double brace (the re.match of
    open braces, whitespace, newline against the part). -/
def blockAdj (g1 : List Char) : Nat :=
  if '\n' ∈ (g1.drop 2).takeWhile isPySpace then 1 else 0

/-- The directive dispatch of build for a group 1 part, in source order:
    empty raises the unescaped-dollar error, a lone dollar appends the
    literal dollar, a double-brace part executes its realigned body, a
    bracket part extends with the list comprehension, a single-brace part
    appends the evaluated expression, a part not ending in a newline is an
    identifier to evaluate, and a line continuation emits nothing. -/
def processG1 (file : List Char) (st : BState) (ln : Nat) (g1 : List Char) :
    Except Err BState :=
  match g1 with
  | [] => .error { kind := .unescapedDollar, file := file, line := ln }
  | ['$'] => .ok (addcode st .lit ['$'] ln)
  | '{' :: '{' :: _ => .ok (addcode st .block (realign [' '] (mid2 g1)) (ln + blockAdj g1))
  | '{' :: '[' :: _ => .ok (addcode st .listexp (mid2 g1) ln)
  | '{' :: _ => .ok (addcode st .expr (mid1 g1) ln)
  | _ =>
    if g1.getLast? = some '\n' then .ok st
    else .ok (addcode st .expr g1 ln)

/-- A literal part is emitted only when non-empty. -/
def emitLit (st : BState) (l : List Char) (ln : Nat) : BState :=
  match l with
  | [] => st
  | _ => addcode st .lit l ln

/-- The loop of build over the split parts: each chunk contributes its
    literal and its directive, the line counter advances by the newline
    count of every part including the eaten group 2; the final literal is
    emitted last. -/
def buildLoop (file : List Char) :
    List Chunk → List Char → BState → Nat → Except Err BState
  | [], fin, st, ln => .ok (emitLit st fin ln)
  | ch :: rest, fin, st, ln =>
    let st1 := emitLit st ch.lit ln
    let ln1 := ln + nlCount ch.lit
    match processG1 file st1 ln1 ch.g1 with
    | .error e => .error e
    | .ok st2 => buildLoop file rest fin st2 (ln1 + nlCount ch.g1 + nlCount ch.g2)

/-- Scanning plus emission for an already margin-normalized text, from an
    arbitrary builder state and line counter. -/
def buildCore (t : List Char) (st : BState) (ln : Nat) (file : List Char) :
    Except Err BState :=
  let s := scan t
  buildLoop file s.1 s.2 st ln

/-- Initial builder state of build: the defn entry carries declLine - 1
    leading newlines and the out-initialization entry follows it, so
    declLine + 1 physical lines exist before the first instruction
    (2 when declLine is 0, matching the Python max). -/
def initState (declLine : Nat) : BState :=
  { lineCount := 2 + (declLine - 1), lastSimple := true, rev := [] }

/-- Whether the template starts with a blank line terminated by a newline
    (the re.match of whitespace-then-newline in build), compensating for
    the leading blank line that realign drops. -/
def startsBlankNl (t : List Char) : Bool :=
  (t.takeWhile isPySpace).contains '\n'

/-- The line number at which the first template line lives: declaration
    line plus docstring offset, plus one when realign drops the leading
    blank line. -/
def firstLineno (t : List Char) (declLine docline : Nat) : Nat :=
  declLine + docline + (if startsBlankNl t then 1 else 0)

/-- _TemplateBuilder.build: margin-normalize, scan, emit.  Returns the
    emitted instruction sequence in order of emission. -/
def build (t : List Char) (file : List Char) (declLine docline : Nat) :
    Except Err (List Instr) :=
  (buildCore (realign [] t) (initState declLine) (firstLineno t declLine docline)
    file).map (fun st => st.rev.reverse)

/-- The templet driver restricted to this core: a missing docstring fails
    with the no-template error at the declaration line, otherwise the
    template is compiled by build. -/
def templetC (doc : Option (List Char)) (file : List Char) (declLine docline : Nat) :
    Except Err (List Instr) :=
  match doc with
  | none => .error { kind := .noTemplate, file := file, line := declLine }
  | some t => build t file declLine docline

/-- The TemplateSource record of the data model. -/
structure TemplateSource where
  text : List Char
  file : List Char
  startLine : Nat
  bodyOffset : Nat
deriving DecidableEq

/-- Compilation of a TemplateSource. -/
def compileSrc (s : TemplateSource) : Except Err (List Instr) :=
  build s.text s.file s.startLine s.bodyOffset

/-- Executor over the instruction sequence: literals append their payload,
    evaluated and list instructions append what the evaluation oracle env
    yields for their expression, and a raw code block is outside the
    executor (none).  Used to state the pass-through property. -/
def runInstrs (env : List Char → List Char) : List Instr → Option (List Char)
  | [] => some []
  | i :: rest =>
    match i.op with
    | .block => none
    | .lit => (runInstrs env rest).map (fun s => i.payload ++ s)
    | _ => (runInstrs env rest).map (fun s => env i.payload ++ s)

/-- A text position right after a dollar where no directive form matches:
    the lookahead lets the dollar start a match and group 1 comes out
    empty. -/
def isBadDir (r : List Char) : Prop :=
  lookaheadBad r = false ∧ matchDirective r = ([], r)

/-- Whether a build result is an error. -/
def isErr {α : Type} : Except Err α → Bool
  | .error _ => true
  | .ok _ => false

/-- The error of a build result, when there is one. -/
def errOf {α : Type} : Except Err α → Option Err
  | .error e => some e
  | .ok _ => none

/-- Whether the scan of a text contains a bare dollar: some chunk has an
    empty group 1. -/
def hasBare (t : List Char) : Bool :=
  (scan t).1.any (fun ch => ch.g1.isEmpty)

/-- Concrete template with a substitution, an inline code block and a
    further substitution, all on one content line. -/
def tOneLine : List Char := ['$', 'a', '$', '{', '{', 'x', '}', '}', '$', 'b']

/-- A concrete file name. -/
def fName : List Char := ['f']

/-- Concrete literal text with no dollar. -/
def tPlain : List Char := ['h', 'i', '\n', ' ', 't', 'h', 'e', 'r', 'e']

/-- Concrete bad-template tail: after the dollar comes a character that
    matches no directive form. -/
def rBad : List Char := ['<', 'z']

/-- Concrete literal prefix containing a newline. -/
def litPre : List Char := ['x', 'y', '\n']

/-- Concrete template for the margin-normalization witness: a leading
    blank line, then two indented lines with margins 2 and 3. -/
def tMargin : List Char :=
  ['\n', ' ', ' ', 'a', 'b', '\n', ' ', ' ', ' ', 'c', '\n']

/-- A trivial evaluation oracle. -/
def envNil : List Char → List Char := fun _ => []

/-- Placement discipline of a single instruction, as enforced by addcode:
    a merged instruction sits on the last line already emitted, which its
    requested line has reached, and is simple; an unmerged instruction
    sits at its requested line, or directly after the emitted lines when
    the request lies behind them. -/
def instrOk (i : Instr) : Prop :=
  (i.merged = true → i.placed = i.prevLines ∧ i.req ≤ i.prevLines ∧
    simpleOf i.op = true) ∧
  (i.merged = false → i.placed = max (i.prevLines + 1) i.req)

/-- Relation between an instruction and the one emitted just before it:
    the line bookkeeping continues from the end line of the older
    instruction, merging happens exactly when both are simple and the new
    request does not pass the end line of the older instruction, and
    placement never moves backward. -/
def pairOk (newer older : Instr) : Prop :=
  newer.prevLines = older.placed + genNl older ∧
  (newer.merged = true ↔
    (newer.req ≤ newer.prevLines ∧ simpleOf newer.op = true ∧
      simpleOf older.op = true)) ∧
  older.placed ≤ newer.placed

/-- Builder-state invariant: every emitted instruction obeys the
    placement discipline, adjacent instructions obey the pair relation,
    and the simple flag and line count agree with the newest
    instruction. -/
def stInv (st : BState) : Prop :=
  (∀ i ∈ st.rev, instrOk i) ∧
  List.Chain' pairOk st.rev ∧
  (∀ i, st.rev.head? = some i →
    st.lastSimple = simpleOf i.op ∧ st.lineCount = i.placed + genNl i)

end Templet

namespace Templet

theorem dropWhile_length_le (p : Char → Bool) (l : List Char) :
    (l.dropWhile p).length ≤ l.length :=
  (List.dropWhile_sublist _).length_le

theorem takeWhile_append_of_all (p : Char → Bool) (l m : List Char)
    (h : ∀ x ∈ l, p x = true) :
    (l ++ m).takeWhile p = l ++ m.takeWhile p := by
  induction l with
  | nil => simp
  | cons a t ih => simp_all [List.takeWhile_cons]

theorem dropWhile_append_of_all (p : Char → Bool) (l m : List Char)
    (h : ∀ x ∈ l, p x = true) :
    (l ++ m).dropWhile p = m.dropWhile p := by
  induction l with
  | nil => simp
  | cons a t ih => simp_all [List.dropWhile_cons]

theorem dropWhile_head_false (p : Char → Bool) :
    ∀ (l : List Char) (y : Char) (rest : List Char),
      l.dropWhile p = y :: rest → p y = false := by
  intro l
  induction l with
  | nil => intro y rest h; simp at h
  | cons a t ih =>
    intro y rest h
    rw [List.dropWhile_cons] at h
    by_cases hp : p a = true
    · rw [if_pos hp] at h; exact ih y rest h
    · rw [if_neg hp] at h
      cases h
      simpa using hp

theorem breakAtChar_some (c : Char) (l p s : List Char)
    (h : breakAtChar c l = some (p, s)) :
    l = p ++ c :: s ∧ (∀ x ∈ p, x ≠ c) := by
  unfold breakAtChar at h
  cases hd : l.dropWhile (fun x => !(x = c)) with
  | nil => rw [hd] at h; exact absurd h (by simp)
  | cons y rest =>
    rw [hd] at h
    simp only [Option.some.injEq, Prod.mk.injEq] at h
    obtain ⟨hp, hs⟩ := h
    have hy := dropWhile_head_false (fun x => !(x = c)) l y rest hd
    have hyc : y = c := by simpa using hy
    constructor
    · have := List.takeWhile_append_dropWhile (p := fun x => !(x = c)) (l := l)
      rw [hd, hp, hyc, hs] at this
      exact this.symm
    · intro x hx
      rw [← hp] at hx
      have := List.mem_takeWhile_imp hx
      simpa using this

theorem hasPair_cons_false (a b x : Char) (L : List Char)
    (h1 : ¬(x = a ∧ L.head? = some b)) (h2 : hasPair a b L = false) :
    hasPair a b (x :: L) = false := by
  cases L with
  | nil => simp [hasPair]
  | cons y t =>
    rw [hasPair]
    simp only [Bool.or_eq_false_iff]
    refine ⟨?_, h2⟩
    by_cases hx : x = a
    · simp only [List.head?_cons, Option.some.injEq] at h1
      have hy : ¬ y = b := fun hy => h1 ⟨hx, hy⟩
      simp [hy]
    · simp [hx]

theorem breakAt2_some (a b : Char) :
    ∀ l p s, breakAt2 a b l = some (p, s) →
      l = p ++ a :: b :: s ∧ hasPair a b (p ++ [a]) = false := by
  intro l
  induction l with
  | nil => intro p s h; simp [breakAt2] at h
  | cons x t ih =>
    intro p s h
    match t, h with
    | [], h => simp [breakAt2] at h
    | y :: rest, h =>
      rw [breakAt2] at h
      by_cases hab : x = a ∧ y = b
      · rw [if_pos (by simp [hab.1, hab.2])] at h
        simp only [Option.some.injEq, Prod.mk.injEq] at h
        obtain ⟨hp, hs⟩ := h
        subst hp hs
        refine ⟨by simp [hab.1, hab.2], ?_⟩
        simp [hasPair]
      · rw [if_neg (by simpa using hab)] at h
        cases hrec : breakAt2 a b (y :: rest) with
        | none => rw [hrec] at h; exact absurd h (by simp)
        | some pr =>
          rw [hrec] at h
          simp only [Option.some.injEq, Prod.mk.injEq] at h
          obtain ⟨hp, hs⟩ := h
          obtain ⟨hl, hnp⟩ := ih pr.1 pr.2 (by rw [hrec])
          subst hp hs
          have hhead : ∃ z, (pr.1 ++ [a]).head? = some z ∧ y :: rest = z :: ((pr.1 ++ [a]).tail ++ b :: pr.2).tail ∨ True := ⟨a, Or.inr trivial⟩
          constructor
          · simp [hl]
          · refine hasPair_cons_false a b x (pr.1 ++ [a]) ?_ hnp
            intro hcon
            cases hq : pr.1 with
            | nil =>
              rw [hq] at hl hcon
              simp only [List.nil_append] at hl hcon
              have hya : y = a := by
                have := congrArg List.head? hl
                simpa using this
              simp only [List.head?_cons, Option.some.injEq] at hcon
              exact hab ⟨hcon.1, by rw [hya, hcon.2]⟩
            | cons q qt =>
              rw [hq] at hl hcon
              have hyq : y = q := by
                have := congrArg List.head? hl
                simpa using this
              simp only [List.cons_append, List.head?_cons, Option.some.injEq] at hcon
              exact hab ⟨hcon.1, by rw [hyq, hcon.2]⟩

theorem breakAt2_length (a b : Char) (l p s : List Char)
    (h : breakAt2 a b l = some (p, s)) : s.length + 2 ≤ l.length := by
  obtain ⟨hl, _⟩ := breakAt2_some a b l p s h
  subst hl
  simp only [List.length_append, List.length_cons]
  omega

theorem breakAtChar_length (c : Char) (l p s : List Char)
    (h : breakAtChar c l = some (p, s)) : s.length + 1 ≤ l.length := by
  obtain ⟨hl, _⟩ := breakAtChar_some c l p s h
  subst hl
  simp only [List.length_append, List.length_cons]
  omega

theorem matchDirective_length (rest : List Char) :
    (matchDirective rest).2.length ≤ rest.length := by
  unfold matchDirective
  repeat' split
  all_goals try (simp; done)
  case h_2.h_1 =>
    rename_i r2 heq
    have h1 := dropWhile_length_le isHSpace rest
    rw [heq] at h1
    simp only [List.length_cons] at h1
    simp
    omega
  case h_2.h_2.h_1.h_1 =>
    rename_i p s heq
    have h1 := breakAt2_length ']' '}' _ p s heq
    simp
    omega
  case h_2.h_2.h_2.h_1 =>
    rename_i p s heq
    have h1 := breakAt2_length '}' '}' _ p s heq
    simp
    omega
  case h_2.h_2.h_3.h_1 =>
    rename_i p s heq
    have h1 := breakAtChar_length '}' _ p s heq
    simp
    omega
  case h_2.h_2.h_4.isTrue =>
    simp
    exact le_trans (dropWhile_length_le _ _) (Nat.le_succ _)

theorem matchG2_length (g1 rem : List Char) :
    (matchG2 g1 rem).2.length ≤ rem.length := by
  unfold matchG2
  repeat' split
  all_goals try (simp; done)
  rename_i r2 heq
  have h1 := dropWhile_length_le isHSpace rem
  rw [heq] at h1
  simp only [List.length_cons] at h1
  simp
  omega

theorem scanAuxF_congr :
    ∀ (f g : Nat) (cs acc : List Char), cs.length ≤ f → cs.length ≤ g →
      scanAuxF f cs acc = scanAuxF g cs acc := by
  intro f
  induction f with
  | zero =>
    intro g cs acc hf _
    have : cs = [] := List.length_eq_zero.mp (Nat.le_zero.mp hf)
    subst this
    cases g <;> simp [scanAuxF]
  | succ f ih =>
    intro g cs acc _ hg
    cases cs with
    | nil => cases g <;> simp [scanAuxF]
    | cons c r =>
      cases g with
      | zero => simp at hg
      | succ g =>
        rw [scanAuxF, scanAuxF]
        dsimp only
        split
        · have h1 : (matchG2 (matchDirective r).1 (matchDirective r).2).2.length ≤ r.length :=
            le_trans (matchG2_length _ _) (matchDirective_length r)
          have hf2 : (matchG2 (matchDirective r).1 (matchDirective r).2).2.length ≤ f := by
            simp only [List.length_cons] at *; omega
          have hg2 : (matchG2 (matchDirective r).1 (matchDirective r).2).2.length ≤ g := by
            simp only [List.length_cons] at *; omega
          rw [ih g _ [] hf2 hg2]
        · exact ih g r (c :: acc) (by simp only [List.length_cons] at *; omega)
            (by simp only [List.length_cons] at *; omega)

theorem scanAuxF_to_scan (fuel : Nat) (cs : List Char) (h : cs.length ≤ fuel) :
    scanAuxF fuel cs [] = scan cs :=
  scanAuxF_congr fuel (cs.length + 1) cs [] h (by omega)

theorem scanAuxF_append_lit :
    ∀ (A : List Char), '$' ∉ A →
      ∀ (fuel : Nat) (s acc : List Char), (A ++ s).length ≤ fuel →
        scanAuxF fuel (A ++ s) acc = scanAuxF fuel s (A.reverse ++ acc) := by
  intro A
  induction A with
  | nil => intro _ fuel s acc _; simp
  | cons c A ih =>
    intro hA fuel s acc hlen
    have hc : ¬ c = '$' := fun h => hA (h ▸ List.mem_cons_self c A)
    have hA2 : '$' ∉ A := fun h => hA (List.mem_cons_of_mem c h)
    cases fuel with
    | zero => simp at hlen
    | succ fuel =>
      rw [List.cons_append, scanAuxF]
      rw [if_neg (by simp [hc])]
      rw [ih hA2 fuel s (c :: acc) (by simp at hlen ⊢; omega)]
      rw [scanAuxF_congr fuel (fuel + 1) s _ (by simp at hlen ⊢; omega)
        (by simp at hlen ⊢; omega)]
      simp

theorem scan_nodollar (cs : List Char) (h : '$' ∉ cs) :
    scan cs = ([], cs) := by
  unfold scan
  have h2 := scanAuxF_append_lit cs h (cs.length + 1) [] [] (by simp)
  simp only [List.append_nil] at h2
  rw [h2]
  cases cs <;> simp [scanAuxF]

theorem scan_append_dollar (A r : List Char) (hA : '$' ∉ A)
    (h : lookaheadBad r = false) :
    scan (A ++ '$' :: r) =
      (({ lit := A, g1 := (matchDirective r).1,
          g2 := (matchG2 (matchDirective r).1 (matchDirective r).2).1 } : Chunk) ::
         (scan (matchG2 (matchDirective r).1 (matchDirective r).2).2).1,
       (scan (matchG2 (matchDirective r).1 (matchDirective r).2).2).2) := by
  unfold scan
  rw [scanAuxF_append_lit A hA _ ('$' :: r) [] (by simp)]
  have hstep : (A ++ '$' :: r).length = (A.length + r.length) + 1 := by
    simp [List.length_append]
    omega
  rw [hstep, scanAuxF, if_pos (by simp [h])]
  dsimp only
  have hr : (matchG2 (matchDirective r).1 (matchDirective r).2).2.length ≤ r.length :=
    le_trans (matchG2_length _ _) (matchDirective_length r)
  rw [scanAuxF_to_scan (A.length + r.length + 1) _ (by omega)]
  simp
  exact ⟨rfl, rfl⟩

theorem scan_cons_dollar (r : List Char) (h : lookaheadBad r = false) :
    scan ('$' :: r) =
      (({ lit := [], g1 := (matchDirective r).1,
          g2 := (matchG2 (matchDirective r).1 (matchDirective r).2).1 } : Chunk) ::
         (scan (matchG2 (matchDirective r).1 (matchDirective r).2).2).1,
       (scan (matchG2 (matchDirective r).1 (matchDirective r).2).2).2) := by
  have h2 := scan_append_dollar [] r (by simp) h
  simpa using h2

theorem stInv_cons (st : BState) (i : Instr) (lc : Nat)
    (h : stInv st) (hi : instrOk i)
    (hpair : ∀ i0, st.rev.head? = some i0 → pairOk i i0)
    (hlc : lc = i.placed + genNl i) :
    stInv { lineCount := lc, lastSimple := simpleOf i.op, rev := i :: st.rev } := by
  obtain ⟨hall, hchain, hhead⟩ := h
  refine ⟨?_, ?_, ?_⟩
  · intro j hj
    rcases List.mem_cons.mp hj with hj | hj
    · subst hj; exact hi
    · exact hall j hj
  · show List.Chain' pairOk (i :: st.rev)
    cases hrev : st.rev with
    | nil => simp [List.chain'_singleton]
    | cons i0 tl =>
      rw [hrev] at hchain
      exact List.chain'_cons.mpr ⟨hpair i0 (by rw [hrev]; rfl), hchain⟩
  · intro j hj
    simp only [List.head?_cons, Option.some.injEq] at hj
    subst hj
    exact ⟨rfl, hlc⟩

theorem addcode_inv (st : BState) (op : Op) (payload : List Char) (ln : Nat)
    (h : stInv st) : stInv (addcode st op payload ln) := by
  obtain ⟨hall, hchain, hhead⟩ := h
  unfold addcode
  split
  next hc =>
    obtain ⟨h1, h2, h3⟩ := hc
    refine stInv_cons st _ _ ⟨hall, hchain, hhead⟩ ?_ ?_ rfl
    · exact ⟨fun _ => ⟨rfl, h1, h2⟩, fun hm => absurd hm (by simp)⟩
    · intro i0 h0
      obtain ⟨hs, hl⟩ := hhead i0 h0
      refine ⟨by simpa [genNl] using hl, ?_, ?_⟩
      · constructor
        · intro _
          exact ⟨h1, h2, by rw [← hs, h3]⟩
        · intro _
          rfl
      · show i0.placed ≤ st.lineCount
        rw [hl]
        exact Nat.le_add_right _ _
  next hc =>
    refine stInv_cons st _ _ ⟨hall, hchain, hhead⟩ ?_ ?_ rfl
    · refine ⟨fun hm => absurd hm (by simp), fun _ => ?_⟩
      show st.lineCount + (ln - st.lineCount - 1) + 1 = max (st.lineCount + 1) ln
      rw [Nat.max_def]
      split <;> omega
    · intro i0 h0
      obtain ⟨hs, hl⟩ := hhead i0 h0
      refine ⟨by simpa [genNl] using hl, ?_, ?_⟩
      · constructor
        · intro hm
          exact absurd hm (by simp)
        · intro hm
          exact absurd ⟨hm.1, hm.2.1, by rw [hs]; exact hm.2.2⟩ hc
      · show i0.placed ≤ st.lineCount + (ln - st.lineCount - 1) + 1
        have h0p : i0.placed ≤ st.lineCount := by
          rw [hl]
          exact Nat.le_add_right _ _
        omega

theorem emitLit_inv (st : BState) (l : List Char) (ln : Nat)
    (h : stInv st) : stInv (emitLit st l ln) := by
  unfold emitLit
  split
  · exact h
  · exact addcode_inv st .lit l ln h

theorem processG1_inv (file : List Char) (st : BState) (ln : Nat) (g1 : List Char)
    (st2 : BState) (h : stInv st) (hok : processG1 file st ln g1 = .ok st2) :
    stInv st2 := by
  unfold processG1 at hok
  repeat' split at hok
  all_goals first
    | (simp only [Except.ok.injEq] at hok
       subst hok
       first
         | exact addcode_inv _ _ _ _ h
         | exact h)
    | exact absurd hok (by simp)

theorem buildLoop_inv (file : List Char) :
    ∀ (chs : List Chunk) (fin : List Char) (st : BState) (ln : Nat) (st2 : BState),
      stInv st → buildLoop file chs fin st ln = .ok st2 → stInv st2 := by
  intro chs
  induction chs with
  | nil =>
    intro fin st ln st2 h hok
    unfold buildLoop at hok
    simp only [Except.ok.injEq] at hok
    subst hok
    exact emitLit_inv _ _ _ h
  | cons ch rest ih =>
    intro fin st ln st2 h hok
    unfold buildLoop at hok
    dsimp only at hok
    cases hp : processG1 file (emitLit st ch.lit ln) (ln + nlCount ch.lit) ch.g1 with
    | error e => rw [hp] at hok; exact absurd hok (by simp)
    | ok st1 =>
      rw [hp] at hok
      exact ih fin st1 _ st2
        (processG1_inv _ _ _ _ _ (emitLit_inv _ _ _ h) hp) hok

theorem initState_inv (declLine : Nat) : stInv (initState declLine) := by
  refine ⟨?_, ?_, ?_⟩
  · intro i hi; simp [initState] at hi
  · simp [initState]
  · intro i hi; simp [initState] at hi

theorem build_inv (t file : List Char) (declLine docline : Nat) (l : List Instr)
    (h : build t file declLine docline = .ok l) :
    ∃ st2, stInv st2 ∧ l = st2.rev.reverse := by
  unfold build at h
  cases hc : buildCore (realign [] t) (initState declLine)
      (firstLineno t declLine docline) file with
  | error e => rw [hc] at h; simp [Except.map] at h
  | ok st2 =>
    rw [hc] at h
    simp only [Except.map, Except.ok.injEq] at h
    refine ⟨st2, ?_, h.symm⟩
    unfold buildCore at hc
    exact buildLoop_inv file _ _ _ _ _ (initState_inv declLine) hc

theorem chain_with_all {α : Type} {R : α → α → Prop} {P : α → Prop} :
    ∀ (l : List α), List.Chain' R l → (∀ i ∈ l, P i) →
      List.Chain' (fun a b => R a b ∧ P a ∧ P b) l := by
  intro l
  induction l with
  | nil => intro _ _; simp
  | cons a t ih =>
    intro hc hp
    cases t with
    | nil => simp
    | cons b t2 =>
      rw [List.chain'_cons] at hc ⊢
      refine ⟨⟨hc.1, hp a (by simp), hp b (by simp)⟩, ?_⟩
      exact ih hc.2 (fun i hi => hp i (List.mem_cons_of_mem _ hi))

/-- Claim C1, corrected form: whenever the requested line of an emitted
    instruction (declaration line plus body offset plus content line
    minus one, tracked as the req field) lies strictly beyond the
    generated lines already present, the instruction is placed exactly at
    that requested line and is not merged; when generated code has
    already reached the requested line, the instruction lands on the
    current last generated line if merged, and on the line right after it
    otherwise. -/
theorem claim_C1_line_mapping (t file : List Char) (declLine docline : Nat)
    (l : List Instr) (h : build t file declLine docline = .ok l) :
    ∀ i ∈ l,
      (i.prevLines < i.req → i.placed = i.req ∧ i.merged = false) ∧
      (i.req ≤ i.prevLines →
        (i.merged = true → i.placed = i.prevLines) ∧
        (i.merged = false → i.placed = i.prevLines + 1)) := by
  obtain ⟨st2, ⟨hall, _, _⟩, hl⟩ := build_inv t file declLine docline l h
  subst hl
  intro i hi
  obtain ⟨h1, h2⟩ := hall i (List.mem_reverse.mp hi)
  constructor
  · intro hlt
    have hmf : i.merged = false := by
      cases hb : i.merged
      · rfl
      · obtain ⟨_, hle, _⟩ := h1 hb
        omega
    refine ⟨?_, hmf⟩
    rw [h2 hmf, Nat.max_def]
    split <;> omega
  · intro hle
    refine ⟨fun hm => (h1 hm).1, fun hm => ?_⟩
    rw [h2 hm, Nat.max_def]
    split <;> omega

/-- Claim C1 witness: the first instruction of the one-line sample
    template, whose requested line 3 exceeds the 2 preamble lines, is
    placed at line 3 and not merged. -/
theorem claim_C1_line_mapping_witness :
    (({ op := Op.expr, payload := ['a'], req := 3, prevLines := 2, placed := 3,
        merged := false } : Instr).prevLines <
       ({ op := Op.expr, payload := ['a'], req := 3, prevLines := 2, placed := 3,
          merged := false } : Instr).req →
      ({ op := Op.expr, payload := ['a'], req := 3, prevLines := 2, placed := 3,
         merged := false } : Instr).placed =
        ({ op := Op.expr, payload := ['a'], req := 3, prevLines := 2, placed := 3,
           merged := false } : Instr).req ∧
      ({ op := Op.expr, payload := ['a'], req := 3, prevLines := 2, placed := 3,
         merged := false } : Instr).merged = false) ∧
    (({ op := Op.expr, payload := ['a'], req := 3, prevLines := 2, placed := 3,
        merged := false } : Instr).req ≤
       ({ op := Op.expr, payload := ['a'], req := 3, prevLines := 2, placed := 3,
          merged := false } : Instr).prevLines →
      (({ op := Op.expr, payload := ['a'], req := 3, prevLines := 2, placed := 3,
          merged := false } : Instr).merged = true →
        ({ op := Op.expr, payload := ['a'], req := 3, prevLines := 2, placed := 3,
           merged := false } : Instr).placed =
          ({ op := Op.expr, payload := ['a'], req := 3, prevLines := 2, placed := 3,
             merged := false } : Instr).prevLines) ∧
      (({ op := Op.expr, payload := ['a'], req := 3, prevLines := 2, placed := 3,
          merged := false } : Instr).merged = false →
        ({ op := Op.expr, payload := ['a'], req := 3, prevLines := 2, placed := 3,
           merged := false } : Instr).placed =
          ({ op := Op.expr, payload := ['a'], req := 3, prevLines := 2, placed := 3,
             merged := false } : Instr).prevLines + 1)) :=
  claim_C1_line_mapping tOneLine fName 1 2
    ((build tOneLine fName 1 2).toOption.getD []) rfl
    { op := Op.expr, payload := ['a'], req := 3, prevLines := 2, placed := 3,
      merged := false } (by decide)

/-- Claim C1 counterexample: in the sample template the directive for b
    begins on content line 1, so the claimed placement is declaration
    line 1 plus body offset 2 plus 0, which is 3; the builder places the
    instruction at generated line 5 because the inline code block has
    already pushed the generated code past line 3. -/
theorem claim_C1_counterexample :
    (build tOneLine fName 1 2).toOption.map
        (List.map (fun i => (i.req, i.placed))) =
      some [(3, 3), (3, 4), (3, 5)] ∧
    ¬ (5 : Nat) = 1 + 2 + (1 - 1) := by
  constructor
  · rfl
  · decide

/-- Claim C5: across every compiled instruction sequence the placed
    target lines are non-decreasing. -/
theorem claim_C5_target_monotone (t file : List Char) (declLine docline : Nat)
    (l : List Instr) (h : build t file declLine docline = .ok l) :
    List.Chain' (fun a b => a.placed ≤ b.placed) l := by
  obtain ⟨st2, ⟨_, hchain, _⟩, hl⟩ := build_inv t file declLine docline l h
  subst hl
  rw [List.chain'_reverse]
  exact hchain.imp (fun a b hp => hp.2.2)

/-- Claim C5 witness: in the sample template the second instruction does
    not move backward from the first. -/
theorem claim_C5_target_monotone_witness :
    ({ op := Op.expr, payload := ['a'], req := 3, prevLines := 2, placed := 3,
       merged := false } : Instr).placed ≤
      ({ op := Op.block, payload := [' ', 'x'], req := 3, prevLines := 3,
         placed := 4, merged := false } : Instr).placed := by
  have h := claim_C5_target_monotone tOneLine fName 1 2
    ((build tOneLine fName 1 2).toOption.getD []) rfl
  have h2 : List.Chain' (fun a b => a.placed ≤ b.placed)
      [({ op := Op.expr, payload := ['a'], req := 3, prevLines := 2, placed := 3,
          merged := false } : Instr),
       { op := Op.block, payload := [' ', 'x'], req := 3, prevLines := 3,
         placed := 4, merged := false },
       { op := Op.expr, payload := ['b'], req := 3, prevLines := 4, placed := 5,
         merged := false }] := h
  exact (List.chain'_cons.mp h2).1

/-- Claim C4: the merging rule.  For every pair of consecutive emitted
    instructions, the later one is merged onto the generated line the
    earlier one occupies exactly when both are simple and the later
    requested line does not exceed the last line of the earlier
    instruction; merging happens exactly when both share that line; a raw
    code block is never merged. -/
theorem claim_C4_merge_rule (t file : List Char) (declLine docline : Nat)
    (l : List Instr) (h : build t file declLine docline = .ok l) :
    List.Chain' (fun a b =>
      (b.merged = true ↔ (simpleOf a.op = true ∧ simpleOf b.op = true ∧
        b.req ≤ a.placed + genNl a)) ∧
      (b.merged = true ↔ b.placed = a.placed + genNl a)) l ∧
    (∀ i ∈ l, simpleOf i.op = false → i.merged = false) := by
  obtain ⟨st2, ⟨hall, hchain, _⟩, hl⟩ := build_inv t file declLine docline l h
  subst hl
  constructor
  · rw [List.chain'_reverse]
    refine (chain_with_all st2.rev hchain (fun i hi => hall i hi)).imp ?_
    intro x y hco
    obtain ⟨⟨hp1, hp2, hp3⟩, hix, hiy⟩ := hco
    show (x.merged = true ↔ (simpleOf y.op = true ∧ simpleOf x.op = true ∧
        x.req ≤ y.placed + genNl y)) ∧
      (x.merged = true ↔ x.placed = y.placed + genNl y)
    constructor
    · rw [hp2, hp1]
      constructor
      · rintro ⟨ha, hb, hc⟩; exact ⟨hc, hb, ha⟩
      · rintro ⟨ha, hb, hc⟩; exact ⟨hc, hb, ha⟩
    · rw [← hp1]
      constructor
      · intro hm
        exact (hix.1 hm).1
      · intro hpl
        cases hb : x.merged with
        | true => rfl
        | false =>
          have := hix.2 hb
          rw [Nat.max_def] at this
          exfalso
          split at this <;> omega
  · intro i hi hsimp
    cases hb : i.merged with
    | false => rfl
    | true =>
      obtain ⟨_, _, h3⟩ := (hall i (List.mem_reverse.mp hi)).1 hb
      rw [hsimp] at h3
      exact absurd h3 (by simp)

/-- Claim C4 witness: the raw code block of the sample template is not
    merged. -/
theorem claim_C4_merge_rule_witness :
    ({ op := Op.block, payload := [' ', 'x'], req := 3, prevLines := 3,
       placed := 4, merged := false } : Instr).merged = false :=
  (claim_C4_merge_rule tOneLine fName 1 2
      ((build tOneLine fName 1 2).toOption.getD []) rfl).2
    { op := Op.block, payload := [' ', 'x'], req := 3, prevLines := 3,
      placed := 4, merged := false } (by decide) (by decide)

/-- Claim C9: compilation is deterministic; compiling two template
    sources that agree in text, file, start line and body offset yields
    identical compiled results. -/
theorem claim_C9_deterministic (s1 s2 : TemplateSource)
    (ht : s1.text = s2.text) (hf : s1.file = s2.file)
    (hs : s1.startLine = s2.startLine) (hb : s1.bodyOffset = s2.bodyOffset) :
    compileSrc s1 = compileSrc s2 := by
  cases s1
  cases s2
  simp only at ht hf hs hb
  subst ht hf hs hb
  rfl

/-- Claim C9 witness: two identical concrete sources compile alike. -/
theorem claim_C9_deterministic_witness :
    compileSrc { text := tOneLine, file := fName, startLine := 1, bodyOffset := 2 } =
      compileSrc { text := tOneLine, file := fName, startLine := 1, bodyOffset := 2 } :=
  claim_C9_deterministic
    { text := tOneLine, file := fName, startLine := 1, bodyOffset := 2 }
    { text := tOneLine, file := fName, startLine := 1, bodyOffset := 2 }
    rfl rfl rfl rfl

theorem mem_splitlinesAux :
    ∀ (cs acc l : List Char), l ∈ splitlinesAux cs acc →
      ∀ c ∈ l, c ∈ cs ∨ c ∈ acc := by
  intro cs
  induction cs with
  | nil =>
    intro acc l hl c hc
    unfold splitlinesAux at hl
    simp only [List.mem_singleton] at hl
    subst hl
    right
    exact List.mem_reverse.mp hc
  | cons a t ih =>
    intro acc l hl c hc
    unfold splitlinesAux at hl
    split at hl
    · split at hl
      · simp only [List.mem_singleton] at hl
        subst hl
        right
        exact List.mem_reverse.mp hc
      · rcases List.mem_cons.mp hl with hl | hl
        · subst hl
          right
          exact List.mem_reverse.mp hc
        · rcases ih [] l hl c hc with hmem | hmem
          · exact Or.inl (List.mem_cons_of_mem a hmem)
          · simp at hmem
    · rcases ih (a :: acc) l hl c hc with hmem | hmem
      · exact Or.inl (List.mem_cons_of_mem a hmem)
      · rcases List.mem_cons.mp hmem with hmem | hmem
        · exact Or.inl (hmem ▸ List.mem_cons_self a t)
        · exact Or.inr hmem

theorem mem_splitlines (s l : List Char) (hl : l ∈ splitlines s) :
    ∀ c ∈ l, c ∈ s := by
  intro c hc
  unfold splitlines at hl
  split at hl
  · simp at hl
  · rcases mem_splitlinesAux s [] l hl c hc with hmem | hmem
    · exact hmem
    · simp at hmem

theorem mem_dropFirstBlank (ls : List (List Char)) (l : List Char)
    (hl : l ∈ dropFirstBlank ls) : l ∈ ls := by
  unfold dropFirstBlank at hl
  split at hl
  · simp at hl
  · split at hl
    · exact List.mem_cons_of_mem _ hl
    · exact hl

theorem mem_joinNl :
    ∀ (ls : List (List Char)) (c : Char), c ∈ joinNl ls →
      (∃ l ∈ ls, c ∈ l) ∨ c = '\n' := by
  intro ls
  induction ls with
  | nil => intro c hc; simp [joinNl] at hc
  | cons l rest ih =>
    intro c hc
    cases rest with
    | nil =>
      left
      exact ⟨l, by simp, by simpa [joinNl] using hc⟩
    | cons l2 rest2 =>
      have hj : joinNl (l :: l2 :: rest2) = l ++ '\n' :: joinNl (l2 :: rest2) := rfl
      rw [hj] at hc
      rcases List.mem_append.mp hc with hc | hc
      · exact Or.inl ⟨l, by simp, hc⟩
      · rcases List.mem_cons.mp hc with hc | hc
        · exact Or.inr hc
        · rcases ih c hc with ⟨l3, hl3, hc3⟩ | hc
          · exact Or.inl ⟨l3, List.mem_cons_of_mem _ hl3, hc3⟩
          · exact Or.inr hc

theorem mem_realign (sp s : List Char) (c : Char) (hc : c ∈ realign sp s) :
    c ∈ sp ∨ c ∈ s ∨ c = '\n' := by
  unfold realign at hc
  rcases mem_joinNl _ c hc with ⟨l, hl, hcl⟩ | hc
  · rcases List.mem_map.mp hl with ⟨l0, hl0, heq⟩
    subst heq
    rcases List.mem_append.mp hcl with hcl | hcl
    · exact Or.inl hcl
    · refine Or.inr (Or.inl ?_)
      exact mem_splitlines s l0
        (mem_dropFirstBlank _ _ hl0) c (List.mem_of_mem_drop hcl)
  · exact Or.inr (Or.inr hc)

/-- Claim C3: a template with no dollar at all compiles successfully and,
    whatever the evaluation oracle, the executed result is exactly the
    margin-normalized template text. -/
theorem claim_C3_passthrough (t file : List Char) (declLine docline : Nat)
    (env : List Char → List Char) (h : '$' ∉ t) :
    ∃ l, build t file declLine docline = .ok l ∧
      runInstrs env l = some (realign [] t) := by
  have hno : '$' ∉ realign [] t := by
    intro hc
    rcases mem_realign [] t '$' hc with hm | hm | hm
    · simp at hm
    · exact h hm
    · exact absurd hm (by decide)
  unfold build buildCore
  rw [scan_nodollar _ hno]
  cases hfin : realign [] t with
  | nil =>
    exact ⟨[], by simp [buildLoop, emitLit, Except.map, initState],
      by simp [runInstrs]⟩
  | cons c r =>
    unfold buildLoop emitLit
    dsimp only
    unfold addcode
    split
    · exact ⟨_, rfl, by simp [runInstrs, initState]⟩
    · exact ⟨_, rfl, by simp [runInstrs, initState]⟩

/-- Claim C3 witness: the concrete dollar-free template evaluates to its
    margin-normalized text under the trivial oracle. -/
theorem claim_C3_passthrough_witness :
    runInstrs envNil ((build tPlain fName 5 2).toOption.getD []) =
      some (realign [] tPlain) := by
  obtain ⟨l, h1, h2⟩ := claim_C3_passthrough tPlain fName 5 2 envNil (by decide)
  rw [h1]
  exact h2

theorem processG1_ok (file : List Char) (st : BState) (ln : Nat)
    (g1 : List Char) (hg : g1 ≠ []) :
    ∃ st2, processG1 file st ln g1 = .ok st2 := by
  unfold processG1
  repeat' split
  all_goals first
    | exact absurd rfl hg
    | exact ⟨_, rfl⟩

theorem buildLoop_err (file : List Char) :
    ∀ (chs : List Chunk) (fin : List Char) (st : BState) (ln : Nat),
      isErr (buildLoop file chs fin st ln) = true ↔ ∃ ch ∈ chs, ch.g1 = [] := by
  intro chs
  induction chs with
  | nil => intro fin st ln; simp [buildLoop, isErr]
  | cons ch rest ih =>
    intro fin st ln
    unfold buildLoop
    dsimp only
    by_cases hg : ch.g1 = []
    · have hp : processG1 file (emitLit st ch.lit ln) (ln + nlCount ch.lit) ch.g1 =
          .error { kind := .unescapedDollar, file := file,
                   line := ln + nlCount ch.lit } := by
        rw [hg]; rfl
      rw [hp]
      simp only [isErr, true_iff]
      exact ⟨ch, by simp, hg⟩
    · obtain ⟨st2, hp⟩ := processG1_ok file (emitLit st ch.lit ln)
        (ln + nlCount ch.lit) ch.g1 hg
      rw [hp]
      rw [ih fin st2 (ln + nlCount ch.lit + nlCount ch.g1 + nlCount ch.g2)]
      constructor
      · rintro ⟨ch2, h2, hg2⟩
        exact ⟨ch2, List.mem_cons_of_mem _ h2, hg2⟩
      · rintro ⟨ch2, h2, hg2⟩
        rcases List.mem_cons.mp h2 with h2 | h2
        · exact absurd (h2 ▸ hg2) hg
        · exact ⟨ch2, h2, hg2⟩

theorem isErr_map {α β : Type} (f : α → β) (x : Except Err α) :
    isErr (x.map f) = isErr x := by
  cases x <;> rfl

/-- Claim C2: the compiler raises its syntax error exactly when the
    template text is missing altogether or the scan of the
    margin-normalized text contains a bare dollar matching no directive
    form; and for a normalized text consisting of a dollar-free prefix
    followed by a bare dollar, the reported error carries the file name
    and the exact line of the offending dollar (the running line plus the
    newlines of the prefix). -/
theorem claim_C2_syntax_error :
    (∀ (doc : Option (List Char)) (file : List Char) (declLine docline : Nat),
      isErr (templetC doc file declLine docline) = true ↔
        (doc = none ∨ ∃ t, doc = some t ∧ hasBare (realign [] t) = true)) ∧
    (∀ (A r : List Char) (st : BState) (ln : Nat) (file : List Char),
      '$' ∉ A → isBadDir r →
      buildCore (A ++ '$' :: r) st ln file =
        .error { kind := .unescapedDollar, file := file,
                 line := ln + nlCount A }) := by
  constructor
  · intro doc file declLine docline
    cases doc with
    | none => simp [templetC, isErr]
    | some t =>
      show isErr (build t file declLine docline) = true ↔ _
      unfold build buildCore
      rw [isErr_map]
      rw [buildLoop_err]
      simp only [hasBare, List.any_eq_true, List.isEmpty_iff]
      constructor
      · rintro ⟨ch, hch, hg⟩
        exact Or.inr ⟨t, rfl, ⟨ch, hch, hg⟩⟩
      · rintro (hn | ⟨t2, ht2, ch, hch, hg⟩)
        · exact absurd hn (by simp)
        · simp only [Option.some.injEq] at ht2
          subst ht2
          exact ⟨ch, hch, hg⟩
  · intro A r st ln file hA hbad
    obtain ⟨hla, hmd⟩ := hbad
    unfold buildCore
    rw [scan_append_dollar A r hA hla]
    dsimp only
    rw [hmd]
    have hg2 : matchG2 ([] : List Char) r = ([], r) := rfl
    rw [hg2]
    unfold buildLoop
    dsimp only
    have hp : processG1 file (emitLit st A ln) (ln + nlCount A) [] =
        .error { kind := .unescapedDollar, file := file,
                 line := ln + nlCount A } := rfl
    rw [hp]

/-- Claim C2 witness: a concrete template whose bad dollar sits on the
    second line fails with the unescaped-dollar error on that line. -/
theorem claim_C2_syntax_error_witness :
    buildCore (litPre ++ '$' :: rBad) (initState 1) 5 fName =
      .error { kind := ErrKind.unescapedDollar, file := fName,
               line := 5 + nlCount litPre } :=
  claim_C2_syntax_error.2 litPre rBad (initState 1) 5 fName (by decide)
    ⟨by decide, by decide⟩

theorem nlCount_of_hspace (ws : List Char) (h : ws.all isHSpace = true) :
    nlCount ws = 0 := by
  unfold nlCount
  rw [List.count_eq_zero]
  intro hmem
  have := List.all_eq_true.mp h _ hmem
  simp [isHSpace] at this

theorem pyspace_cases (c : Char) (h : isPySpace c = true) :
    c = ' ' ∨ c = '\t' ∨ c = '\n' ∨ c = '\r' ∨ c = '\x0b' ∨ c = '\x0c' := by
  simp only [isPySpace, Bool.or_eq_true, decide_eq_true_eq] at h
  tauto

theorem hspace_cases (c : Char) (h : isHSpace c = true) :
    c = ' ' ∨ c = '\t' ∨ c = '\r' ∨ c = '\x0b' ∨ c = '\x0c' := by
  simp only [isHSpace, Bool.and_eq_true, Bool.not_eq_true, decide_eq_false_iff_not] at h
  rcases pyspace_cases c h.1 with h1 | h1 | h1 | h1 | h1 | h1
  · exact Or.inl h1
  · exact Or.inr (Or.inl h1)
  · exact absurd h1 (by simpa using h.2)
  · exact Or.inr (Or.inr (Or.inl h1))
  · exact Or.inr (Or.inr (Or.inr (Or.inl h1)))
  · exact Or.inr (Or.inr (Or.inr (Or.inr h1)))

theorem hspace_not_bad (c : Char) (h : isHSpace c = true) :
    (c = '.' || c = '(' || c = '/' || c = '\'' || c = '"') = false := by
  rcases hspace_cases c h with h1 | h1 | h1 | h1 | h1 <;> (subst h1; decide)

theorem lookaheadBad_cont (ws B : List Char) (hws : ws.all isHSpace = true) :
    lookaheadBad (ws ++ '\n' :: B) = false := by
  cases ws with
  | nil => rfl
  | cons w tw =>
    show lookaheadBad (w :: (tw ++ '\n' :: B)) = false
    unfold lookaheadBad
    exact hspace_not_bad w (by
      have := List.all_eq_true.mp hws w (by simp)
      exact this)

theorem takeWhile_hspace_cont (ws B : List Char) (hws : ws.all isHSpace = true) :
    (ws ++ '\n' :: B).takeWhile isHSpace = ws := by
  rw [takeWhile_append_of_all isHSpace ws _ (fun x hx => List.all_eq_true.mp hws x hx)]
  rw [List.takeWhile_cons]
  rw [if_neg (by decide)]
  simp

theorem dropWhile_hspace_cont (ws B : List Char) (hws : ws.all isHSpace = true) :
    (ws ++ '\n' :: B).dropWhile isHSpace = '\n' :: B := by
  rw [dropWhile_append_of_all isHSpace ws _ (fun x hx => List.all_eq_true.mp hws x hx)]
  rw [List.dropWhile_cons]
  rw [if_neg (by decide)]

theorem matchDirective_cont (ws B : List Char) (hws : ws.all isHSpace = true) :
    matchDirective (ws ++ '\n' :: B) = (ws ++ ['\n'], B) := by
  unfold matchDirective
  split
  next r heq =>
    exfalso
    cases ws with
    | nil => simp at heq
    | cons w tw =>
      simp only [List.cons_append, List.cons.injEq] at heq
      have hw := List.all_eq_true.mp hws w (by simp)
      rw [heq.1] at hw
      simp [isHSpace, isPySpace] at hw
  next =>
    rw [dropWhile_hspace_cont ws B hws]
    split
    next r2 heq =>
      simp only [List.cons.injEq, true_and] at heq
      subst heq
      rw [takeWhile_hspace_cont ws B hws]
    next hno =>
      exact absurd rfl (hno B)

theorem matchG2_not_braces (g1 rem : List Char) (h : endsWithBraces g1 = false) :
    matchG2 g1 rem = ([], rem) := by
  unfold matchG2
  rw [if_neg (by simp [h])]

theorem endsWithBraces_cont (ws : List Char) :
    endsWithBraces (ws ++ ['\n']) = false := by
  unfold endsWithBraces
  rw [List.reverse_append]
  rfl

theorem getLast_cont (ws : List Char) :
    (ws ++ ['\n']).getLast? = some '\n' := by
  simp

theorem processG1_cont (file : List Char) (st : BState) (ln : Nat)
    (ws : List Char) (hws : ws.all isHSpace = true) :
    processG1 file st ln (ws ++ ['\n']) = .ok st := by
  have hhead : ∀ c, (ws ++ ['\n']).head? = some c → isHSpace c = true ∨ c = '\n' := by
    intro c hc
    cases ws with
    | nil => simp at hc; exact Or.inr hc.symm
    | cons w tw =>
      simp at hc
      exact Or.inl (hc ▸ List.all_eq_true.mp hws w (by simp))
  unfold processG1
  split
  next heq => exact absurd heq (by simp)
  next heq =>
    exfalso
    have hc := hhead '$' (by rw [heq]; rfl)
    rcases hc with hc | hc
    · simp [isHSpace, isPySpace] at hc
    · exact absurd hc (by decide)
  next tl heq =>
    exfalso
    have hc := hhead '{' (by rw [heq]; rfl)
    rcases hc with hc | hc
    · simp [isHSpace, isPySpace] at hc
    · exact absurd hc (by decide)
  next tl heq =>
    exfalso
    have hc := hhead '{' (by rw [heq]; rfl)
    rcases hc with hc | hc
    · simp [isHSpace, isPySpace] at hc
    · exact absurd hc (by decide)
  next tl heq =>
    exfalso
    have hc := hhead '{' (by rw [heq]; rfl)
    rcases hc with hc | hc
    · simp [isHSpace, isPySpace] at hc
    · exact absurd hc (by decide)
  next =>
    rw [if_pos (getLast_cont ws)]

/-- Claim C6: a dollar immediately followed by horizontal whitespace and
    a newline is a line continuation: the whitespace and the newline are
    consumed with no instruction emitted and no separator inserted, all
    following content is compiled from the same builder state, and the
    source line counter advances by exactly one past the consumed
    newline. -/
theorem claim_C6_line_continuation (A ws B : List Char) (st : BState)
    (ln : Nat) (file : List Char) (hA : '$' ∉ A)
    (hws : ws.all isHSpace = true) :
    buildCore (A ++ '$' :: (ws ++ '\n' :: B)) st ln file =
      buildCore B (emitLit st A ln) (ln + nlCount A + 1) file := by
  unfold buildCore
  rw [scan_append_dollar A _ hA (lookaheadBad_cont ws B hws)]
  rw [matchDirective_cont ws B hws]
  dsimp only
  rw [matchG2_not_braces _ _ (endsWithBraces_cont ws)]
  dsimp only
  show buildLoop file
      ({ lit := A, g1 := ws ++ ['\n'], g2 := [] } :: (scan B).1) (scan B).2 st ln =
    buildLoop file (scan B).1 (scan B).2 (emitLit st A ln) (ln + nlCount A + 1)
  have hstep : buildLoop file
      ({ lit := A, g1 := ws ++ ['\n'], g2 := [] } :: (scan B).1) (scan B).2 st ln =
      match processG1 file (emitLit st A ln) (ln + nlCount A) (ws ++ ['\n']) with
      | .error e => .error e
      | .ok st2 => buildLoop file (scan B).1 (scan B).2 st2
          (ln + nlCount A + nlCount (ws ++ ['\n']) + nlCount ([] : List Char)) := rfl
  rw [hstep, processG1_cont file (emitLit st A ln) (ln + nlCount A) ws hws]
  have hnl : nlCount (ws ++ ['\n']) = 1 := by
    unfold nlCount
    rw [List.count_append]
    have h0 := nlCount_of_hspace ws hws
    unfold nlCount at h0
    rw [h0]
    rfl
  rw [hnl]
  have hz : nlCount ([] : List Char) = 0 := rfl
  rw [hz]

/-- Claim C6 witness: with a concrete literal prefix, continuation
    whitespace and tail, the two compilations coincide. -/
theorem claim_C6_line_continuation_witness :
    buildCore (['a', 'b'] ++ '$' :: ([' '] ++ '\n' :: ['c', 'd']))
        (initState 1) 3 fName =
      buildCore ['c', 'd'] (emitLit (initState 1) ['a', 'b'] 3)
        (3 + nlCount ['a', 'b'] + 1) fName :=
  claim_C6_line_continuation ['a', 'b'] [' '] ['c', 'd'] (initState 1) 3 fName
    (by decide) (by decide)

theorem breakAt2_exact (a b : Char) :
    ∀ (C rest : List Char), hasPair a b (C ++ [a]) = false →
      breakAt2 a b (C ++ a :: b :: rest) = some (C, rest) := by
  intro C
  induction C with
  | nil =>
    intro rest h
    show breakAt2 a b (a :: b :: rest) = some ([], rest)
    rw [breakAt2]
    simp
  | cons x t ih =>
    intro rest h
    cases ht : t with
    | nil =>
      subst ht
      have hcond : ¬(x = a ∧ a = b) := by
        intro hc
        simp [hasPair, hc.1, hc.2] at h
      show breakAt2 a b (x :: a :: b :: rest) = some ([x], rest)
      rw [breakAt2, if_neg (by simpa using hcond)]
      have hrec : breakAt2 a b (a :: b :: rest) = some ([], rest) := by
        rw [breakAt2]; simp
      rw [hrec]
    | cons z t2 =>
      subst ht
      have h2 : hasPair a b ((z :: t2) ++ [a]) = false := by
        have hh : hasPair a b (x :: z :: (t2 ++ [a])) = false := by
          simpa using h
        rw [hasPair] at hh
        simp only [Bool.or_eq_false_iff] at hh
        simpa using hh.2
      have hcond : ¬(x = a ∧ z = b) := by
        intro hc
        have hh : hasPair a b (x :: z :: (t2 ++ [a])) = false := by
          simpa using h
        rw [hasPair] at hh
        simp [hc.1, hc.2] at hh
      show breakAt2 a b (x :: z :: (t2 ++ a :: b :: rest)) = some (x :: z :: t2, rest)
      rw [breakAt2, if_neg (by simpa using hcond)]
      have hrec := ih rest h2
      rw [show z :: (t2 ++ a :: b :: rest) = (z :: t2) ++ a :: b :: rest from rfl]
      rw [hrec]

theorem matchDirective_block (C rest : List Char)
    (h : hasPair '}' '}' (C ++ ['}']) = false) :
    matchDirective ('{' :: '{' :: (C ++ '}' :: '}' :: rest)) =
      ('{' :: '{' :: (C ++ ['}', '}']), rest) := by
  have hb : breakAt2 '}' '}' (C ++ '}' :: '}' :: rest) = some (C, rest) :=
    breakAt2_exact '}' '}' C rest h
  unfold matchDirective
  split
  next r heq => exact absurd heq (by simp)
  next =>
    split
    next r2 heq =>
      exfalso
      rw [List.dropWhile_cons, if_neg (by decide)] at heq
      simp at heq
    next =>
      split
      next r heq => exact absurd heq (by simp)
      next r heq =>
        simp only [List.cons.injEq, true_and] at heq
        subst heq
        rw [hb]
      next rst r hni hnb heq =>
        exfalso
        simp only [List.cons.injEq, true_and] at heq
        exact hnb (C ++ '}' :: '}' :: rest) heq.symm
      next rst c r h1 h2 h3 heq =>
        exfalso
        simp only [List.cons.injEq] at heq
        exact h3 heq.1.symm
      next rst heq => exact absurd heq (by simp)

theorem endsWithBraces_block (C : List Char) :
    endsWithBraces ('{' :: '{' :: (C ++ ['}', '}'])) = true := by
  unfold endsWithBraces
  have hr : ('{' :: '{' :: (C ++ ['}', '}'])).reverse =
      '}' :: '}' :: (C.reverse ++ ['{', '{']) := by
    simp
  rw [hr]
  rfl

theorem matchG2_braces (g1 ws B : List Char) (hg : endsWithBraces g1 = true)
    (hws : ws.all isHSpace = true) :
    matchG2 g1 (ws ++ '\n' :: B) = (ws ++ ['\n'], B) := by
  unfold matchG2
  rw [if_pos hg]
  rw [dropWhile_hspace_cont ws B hws]
  split
  next r2 heq =>
    simp only [List.cons.injEq, true_and] at heq
    subst heq
    rw [takeWhile_hspace_cont ws B hws]
  next hno =>
    exact absurd rfl (hno B)

theorem mid2_block (C : List Char) :
    mid2 ('{' :: '{' :: (C ++ ['}', '}'])) = C := by
  unfold mid2
  have hlen : ('{' :: '{' :: (C ++ ['}', '}'])).length - 4 = C.length := by
    simp only [List.length_cons, List.length_append, List.length_nil]
    omega
  rw [hlen]
  have hdrop : ('{' :: '{' :: (C ++ ['}', '}'])).drop 2 = C ++ ['}', '}'] := rfl
  rw [hdrop]
  exact List.take_left C ['}', '}']

theorem processG1_block (file : List Char) (st : BState) (ln : Nat) (C : List Char) :
    processG1 file st ln ('{' :: '{' :: (C ++ ['}', '}'])) =
      .ok (addcode st .block (realign [' '] C)
        (ln + blockAdj ('{' :: '{' :: (C ++ ['}', '}'])))) := by
  have h : processG1 file st ln ('{' :: '{' :: (C ++ ['}', '}'])) =
      .ok (addcode st .block (realign [' '] (mid2 ('{' :: '{' :: (C ++ ['}', '}']))))
        (ln + blockAdj ('{' :: '{' :: (C ++ ['}', '}'])))) := rfl
  rw [h, mid2_block]

theorem matchG2_shape (g1 rem : List Char)
    (h : (matchG2 g1 rem).1 ≠ []) :
    endsWithBraces g1 = true ∧
    ∃ w, (matchG2 g1 rem).1 = w ++ ['\n'] ∧ w.all isHSpace = true := by
  unfold matchG2 at h ⊢
  split at h
  next hg =>
    split at h
    next r2 heq =>
      rw [if_pos hg]
      refine ⟨hg, rem.takeWhile isHSpace, rfl, ?_⟩
      rw [List.all_eq_true]
      intro x hx
      exact List.mem_takeWhile_imp hx
    next => exact absurd rfl h
  next => exact absurd rfl h

theorem scanAuxF_g2 :
    ∀ (fuel : Nat) (cs acc : List Char) (ch : Chunk),
      ch ∈ (scanAuxF fuel cs acc).1 → ch.g2 ≠ [] →
        endsWithBraces ch.g1 = true ∧
        ∃ w, ch.g2 = w ++ ['\n'] ∧ w.all isHSpace = true := by
  intro fuel
  induction fuel with
  | zero => intro cs acc ch hch; simp [scanAuxF] at hch
  | succ fuel ih =>
    intro cs acc ch hch hg2
    cases cs with
    | nil => simp [scanAuxF] at hch
    | cons c r =>
      rw [scanAuxF] at hch
      split at hch
      · dsimp only at hch
        rcases List.mem_cons.mp hch with hch | hch
        · subst hch
          simp only at hg2 ⊢
          obtain ⟨h1, w, h2, h3⟩ := matchG2_shape (matchDirective r).1
            (matchDirective r).2 hg2
          exact ⟨h1, w, h2, h3⟩
        · exact ih _ _ _ hch hg2
      · exact ih _ _ _ hch hg2

/-- Claim C10: a code block whose closing braces are followed by
    horizontal whitespace and a newline consumes that trailing whitespace
    and newline as part of the directive token, so they reach neither the
    output nor any instruction, while the line counter still passes the
    newline; and this trailing elision happens only after a token ending
    in the double close brace. -/
theorem claim_C10_block_trailing_newline :
    (∀ (A C ws B : List Char) (st : BState) (ln : Nat) (file : List Char),
      '$' ∉ A → hasPair '}' '}' (C ++ ['}']) = false →
      ws.all isHSpace = true →
      buildCore (A ++ '$' :: '{' :: '{' :: (C ++ '}' :: '}' :: (ws ++ '\n' :: B)))
          st ln file =
        buildCore B
          (addcode (emitLit st A ln) .block (realign [' '] C)
            (ln + nlCount A + blockAdj ('{' :: '{' :: (C ++ ['}', '}']))))
          (ln + nlCount A + nlCount C + 1) file) ∧
    (∀ (t : List Char) (ch : Chunk), ch ∈ (scan t).1 → ch.g2 ≠ [] →
      endsWithBraces ch.g1 = true ∧
      ∃ w, ch.g2 = w ++ ['\n'] ∧ w.all isHSpace = true) := by
  constructor
  · intro A C ws B st ln file hA hC hws
    unfold buildCore
    rw [scan_append_dollar A ('{' :: '{' :: (C ++ '}' :: '}' :: (ws ++ '\n' :: B))) hA (by rfl)]
    rw [matchDirective_block C (ws ++ '\n' :: B) hC]
    dsimp only
    rw [matchG2_braces _ ws B (endsWithBraces_block C) hws]
    dsimp only
    have hstep : buildLoop file
        ({ lit := A, g1 := '{' :: '{' :: (C ++ ['}', '}']), g2 := ws ++ ['\n'] } ::
          (scan B).1) (scan B).2 st ln =
        match processG1 file (emitLit st A ln) (ln + nlCount A)
            ('{' :: '{' :: (C ++ ['}', '}'])) with
        | .error e => .error e
        | .ok st2 => buildLoop file (scan B).1 (scan B).2 st2
            (ln + nlCount A + nlCount ('{' :: '{' :: (C ++ ['}', '}'])) +
              nlCount (ws ++ ['\n'])) := rfl
    rw [hstep, processG1_block]
    have hnlg1 : nlCount ('{' :: '{' :: (C ++ ['}', '}'])) = nlCount C := by
      simp [nlCount, List.count_cons, List.count_append]
    have hnlg2 : nlCount (ws ++ ['\n']) = 1 := by
      unfold nlCount
      rw [List.count_append]
      have h0 := nlCount_of_hspace ws hws
      unfold nlCount at h0
      rw [h0]
      rfl
    rw [hnlg1, hnlg2]
  · intro t ch hch hg2
    exact scanAuxF_g2 (t.length + 1) t [] ch hch hg2

/-- Claim C10 witness: a concrete code block followed by a space and a
    newline compiles like the tail compiled from the post-block state,
    one line further down. -/
theorem claim_C10_block_trailing_newline_witness :
    buildCore (['a'] ++ '$' :: '{' :: '{' :: (['x'] ++ '}' :: '}' ::
        ([' '] ++ '\n' :: ['b']))) (initState 1) 3 fName =
      buildCore ['b']
        (addcode (emitLit (initState 1) ['a'] 3) .block (realign [' '] ['x'])
          (3 + nlCount ['a'] + blockAdj ('{' :: '{' :: (['x'] ++ ['}', '}']))))
        (3 + nlCount ['a'] + nlCount ['x'] + 1) fName :=
  claim_C10_block_trailing_newline.1 ['a'] ['x'] [' '] ['b'] (initState 1) 3 fName
    (by decide) (by decide) (by decide)

/-- Claim C8: brace scanning is single-level and non-balancing.  A
    single-brace expression token contains no close brace at all in its
    content (and this form is only taken when the content does not open
    with a bracket or a brace); a bracketed list token extends to the
    first literal bracket-brace closer; a double-brace code token extends
    to the first literal double close brace, regardless of nested braces
    in the enclosed text. -/
theorem claim_C8_single_level_braces :
    (∀ (t g1 rem : List Char), matchDirective ('{' :: t) = (g1, rem) →
      t.head? ≠ some '[' → t.head? ≠ some '{' → g1 ≠ [] →
      ∃ e, g1 = '{' :: (e ++ ['}']) ∧ '}' ∉ e ∧ t = e ++ '}' :: rem) ∧
    (∀ (t g1 rem : List Char), matchDirective ('{' :: '[' :: t) = (g1, rem) →
      g1 ≠ [] →
      ∃ e, g1 = '{' :: '[' :: (e ++ [']', '}']) ∧
        hasPair ']' '}' (e ++ [']']) = false ∧ t = e ++ ']' :: '}' :: rem) ∧
    (∀ (t g1 rem : List Char), matchDirective ('{' :: '{' :: t) = (g1, rem) →
      g1 ≠ [] →
      ∃ e, g1 = '{' :: '{' :: (e ++ ['}', '}']) ∧
        hasPair '}' '}' (e ++ ['}']) = false ∧ t = e ++ '}' :: '}' :: rem) := by
  refine ⟨?_, ?_, ?_⟩
  · intro t g1 rem hmd hnb hnc hne
    unfold matchDirective at hmd
    split at hmd
    next r heq => exact absurd heq (by simp)
    next =>
      split at hmd
      next r2 heq =>
        exfalso
        rw [List.dropWhile_cons, if_neg (by decide)] at heq
        simp at heq
      next =>
        split at hmd
        next r heq =>
          exfalso
          simp only [List.cons.injEq, true_and] at heq
          exact hnb (by rw [heq]; rfl)
        next r heq =>
          exfalso
          simp only [List.cons.injEq, true_and] at heq
          exact hnc (by rw [heq]; rfl)
        next rst r hni hnbr heq =>
          simp only [List.cons.injEq, true_and] at heq
          subst heq
          cases hbc : breakAtChar '}' t with
          | none =>
            rw [hbc] at hmd
            simp only [Prod.mk.injEq] at hmd
            exact absurd hmd.1.symm hne
          | some pr =>
            rw [hbc] at hmd
            simp only [Prod.mk.injEq] at hmd
            obtain ⟨hl, hmem⟩ := breakAtChar_some '}' t pr.1 pr.2 (by rw [hbc])
            refine ⟨pr.1, hmd.1.symm, ?_, by rw [hl, hmd.2]⟩
            intro hc
            exact hmem '}' hc rfl
        next rst c r h1 h2 h3 heq =>
          exfalso
          simp only [List.cons.injEq] at heq
          exact h3 heq.1.symm
        next rst heq => exact absurd heq (by simp)
  · intro t g1 rem hmd hne
    unfold matchDirective at hmd
    split at hmd
    next r heq => exact absurd heq (by simp)
    next =>
      split at hmd
      next r2 heq =>
        exfalso
        rw [List.dropWhile_cons, if_neg (by decide)] at heq
        simp at heq
      next =>
        split at hmd
        next r heq =>
          simp only [List.cons.injEq, true_and] at heq
          subst heq
          cases hbc : breakAt2 ']' '}' t with
          | none =>
            rw [hbc] at hmd
            simp only [Prod.mk.injEq] at hmd
            exact absurd hmd.1.symm hne
          | some pr =>
            rw [hbc] at hmd
            simp only [Prod.mk.injEq] at hmd
            obtain ⟨hl, hnp⟩ := breakAt2_some ']' '}' t pr.1 pr.2 (by rw [hbc])
            exact ⟨pr.1, hmd.1.symm, hnp, by rw [hl, hmd.2]⟩
        next r heq =>
          exfalso
          simp only [List.cons.injEq] at heq
          have := heq.2.1
          simp at this
        next rst r hni hnbr heq =>
          exfalso
          simp only [List.cons.injEq, true_and] at heq
          exact hni t heq.symm
        next rst c r h1 h2 h3 heq =>
          exfalso
          simp only [List.cons.injEq] at heq
          exact h3 heq.1.symm
        next rst heq => exact absurd heq (by simp)
  · intro t g1 rem hmd hne
    unfold matchDirective at hmd
    split at hmd
    next r heq => exact absurd heq (by simp)
    next =>
      split at hmd
      next r2 heq =>
        exfalso
        rw [List.dropWhile_cons, if_neg (by decide)] at heq
        simp at heq
      next =>
        split at hmd
        next r heq =>
          exfalso
          simp only [List.cons.injEq] at heq
          have := heq.2.1
          simp at this
        next r heq =>
          simp only [List.cons.injEq, true_and] at heq
          subst heq
          cases hbc : breakAt2 '}' '}' t with
          | none =>
            rw [hbc] at hmd
            simp only [Prod.mk.injEq] at hmd
            exact absurd hmd.1.symm hne
          | some pr =>
            rw [hbc] at hmd
            simp only [Prod.mk.injEq] at hmd
            obtain ⟨hl, hnp⟩ := breakAt2_some '}' '}' t pr.1 pr.2 (by rw [hbc])
            exact ⟨pr.1, hmd.1.symm, hnp, by rw [hl, hmd.2]⟩
        next rst r hni hnbr heq =>
          exfalso
          simp only [List.cons.injEq, true_and] at heq
          exact hnbr t heq.symm
        next rst c r h1 h2 h3 heq =>
          exfalso
          simp only [List.cons.injEq] at heq
          exact h3 heq.1.symm
        next rst heq => exact absurd heq (by simp)

/-- Claim C8 witness: on a concrete list token the scanner stops at the
    first literal bracket-brace closer. -/
theorem claim_C8_single_level_braces_witness :
    ∃ e, (matchDirective ('{' :: '[' :: ['x', ']', '}', 'y'])).1 =
        '{' :: '[' :: (e ++ [']', '}']) ∧
      hasPair ']' '}' (e ++ [']']) = false ∧
      ['x', ']', '}', 'y'] = e ++ ']' :: '}' ::
        (matchDirective ('{' :: '[' :: ['x', ']', '}', 'y'])).2 :=
  claim_C8_single_level_braces.2.1 ['x', ']', '}', 'y']
    (matchDirective ('{' :: '[' :: ['x', ']', '}', 'y'])).1
    (matchDirective ('{' :: '[' :: ['x', ']', '}', 'y'])).2 rfl (by decide)

theorem foldl_min_le (xs : List Nat) :
    ∀ (x : Nat), xs.foldl min x ≤ x ∧ ∀ y ∈ xs, xs.foldl min x ≤ y := by
  induction xs with
  | nil => intro x; exact ⟨le_refl x, by simp⟩
  | cons z zs ih =>
    intro x
    rw [List.foldl_cons]
    obtain ⟨h1, h2⟩ := ih (min x z)
    refine ⟨le_trans h1 (Nat.min_le_left x z), ?_⟩
    intro y hy
    rcases List.mem_cons.mp hy with hy | hy
    · subst hy
      exact le_trans h1 (Nat.min_le_right x y)
    · exact h2 y hy

theorem foldl_min_mem (xs : List Nat) :
    ∀ (x : Nat), xs.foldl min x = x ∨ xs.foldl min x ∈ xs := by
  induction xs with
  | nil => intro x; exact Or.inl rfl
  | cons z zs ih =>
    intro x
    rw [List.foldl_cons]
    rcases ih (min x z) with h | h
    · rw [h, Nat.min_def]
      split
      · exact Or.inl rfl
      · exact Or.inr (List.mem_cons_self z zs)
    · exact Or.inr (List.mem_cons_of_mem z h)

theorem marginOf_le (ls : List (List Char)) (l : List Char)
    (hl : l ∈ ls) (hnb : isBlank l = false) : marginOf ls ≤ leadingWS l := by
  unfold marginOf
  have hmem : leadingWS l ∈ (ls.filter (fun l2 => !isBlank l2)).map leadingWS :=
    List.mem_map_of_mem leadingWS (List.mem_filter.mpr ⟨hl, by simp [hnb]⟩)
  cases hc : (ls.filter (fun l2 => !isBlank l2)).map leadingWS with
  | nil => rw [hc] at hmem; simp at hmem
  | cons x xs =>
    rw [hc] at hmem
    rcases List.mem_cons.mp hmem with hm | hm
    · rw [hm]
      exact (foldl_min_le xs x).1
    · exact (foldl_min_le xs x).2 _ hm

theorem marginOf_attained (ls : List (List Char))
    (h : ∃ l ∈ ls, isBlank l = false) :
    ∃ l ∈ ls, isBlank l = false ∧ leadingWS l = marginOf ls := by
  obtain ⟨l0, hl0, hnb0⟩ := h
  have hmem0 : leadingWS l0 ∈ (ls.filter (fun l2 => !isBlank l2)).map leadingWS :=
    List.mem_map_of_mem leadingWS (List.mem_filter.mpr ⟨hl0, by simp [hnb0]⟩)
  unfold marginOf
  cases hc : (ls.filter (fun l2 => !isBlank l2)).map leadingWS with
  | nil => rw [hc] at hmem0; simp at hmem0
  | cons x xs =>
    have hmm : xs.foldl min x ∈ x :: xs := by
      rcases foldl_min_mem xs x with hm | hm
      · rw [hm]; exact List.mem_cons_self x xs
      · exact List.mem_cons_of_mem x hm
    rw [← hc] at hmm
    rcases List.mem_map.mp hmm with ⟨l1, hl1, hle⟩
    obtain ⟨hl1m, hl1f⟩ := List.mem_filter.mp hl1
    exact ⟨l1, hl1m, by simpa using hl1f, hle⟩

theorem take_all_of_le_leading (p : Char → Bool) :
    ∀ (l : List Char) (k : Nat), k ≤ (l.takeWhile p).length →
      (l.take k).all p = true := by
  intro l
  induction l with
  | nil => intro k _; simp
  | cons c t ih =>
    intro k hk
    cases k with
    | zero => simp
    | succ k2 =>
      rw [List.takeWhile_cons] at hk
      by_cases hp : p c = true
      · rw [if_pos hp] at hk
        simp only [List.length_cons] at hk
        rw [List.take_succ_cons, List.all_cons, hp]
        simp only [Bool.true_and]
        exact ih k2 (by omega)
      · rw [if_neg hp] at hk
        simp at hk

theorem take_all_of_blank (l : List Char) (k : Nat)
    (h : isBlank l = true) : (l.take k).all isPySpace = true := by
  unfold isBlank at h
  rw [List.all_eq_true] at h ⊢
  intro x hx
  exact h x (List.mem_of_mem_take hx)

/-- Claim C7: margin normalization drops a single leading blank line when
    the span begins with one, and removes from every remaining line
    exactly the minimum common leading whitespace of the non-blank lines:
    the margin is a lower bound of every non-blank leading-whitespace
    count and is attained by some non-blank line (so blank lines do not
    contribute), and the removed prefix of every line is whitespace
    only. -/
theorem claim_C7_margin_normalization (sp s : List Char) :
    realign sp s = joinNl ((dropFirstBlank (splitlines s)).map
      (fun l => sp ++ l.drop (marginOf (dropFirstBlank (splitlines s))))) ∧
    (∀ b rest, splitlines s = b :: rest → isBlank b = true →
      dropFirstBlank (splitlines s) = rest) ∧
    (∀ l ∈ dropFirstBlank (splitlines s), isBlank l = false →
      marginOf (dropFirstBlank (splitlines s)) ≤ leadingWS l) ∧
    ((∃ l ∈ dropFirstBlank (splitlines s), isBlank l = false) →
      ∃ l ∈ dropFirstBlank (splitlines s), isBlank l = false ∧
        leadingWS l = marginOf (dropFirstBlank (splitlines s))) ∧
    (∀ l ∈ dropFirstBlank (splitlines s),
      (l.take (marginOf (dropFirstBlank (splitlines s)))).all isPySpace = true) := by
  refine ⟨rfl, ?_, ?_, ?_, ?_⟩
  · intro b rest hsp hb
    rw [hsp]
    show (if isBlank b = true then rest else b :: rest) = rest
    rw [if_pos hb]
  · intro l hl hnb
    exact marginOf_le _ l hl hnb
  · intro h
    exact marginOf_attained _ h
  · intro l hl
    cases hb : isBlank l with
    | true => exact take_all_of_blank l _ hb
    | false =>
      have hle := marginOf_le _ l hl hb
      unfold leadingWS at hle
      exact take_all_of_le_leading isPySpace l _ hle

/-- Claim C7 witness: on the concrete template with a leading blank line
    and margins 2 and 3, the computed margin bounds the leading
    whitespace of the first remaining line. -/
theorem claim_C7_margin_normalization_witness :
    marginOf (dropFirstBlank (splitlines tMargin)) ≤
      leadingWS [' ', ' ', 'a', 'b'] :=
  (claim_C7_margin_normalization [] tMargin).2.2.1 [' ', ' ', 'a', 'b']
    (by decide) (by decide)

end Templet
